import Mathlib

/-!
Verification development for the todo-app voice-task core:
the speech-transcript segmentation pipeline (`src/lib/speechParser.ts`),
the due-date phrase resolver (`extractDueDateFromText`), and the task
store (`src/contexts/TaskContext.tsx` reducer and `src/hooks/useTasks.ts`
hook, plus the `AddTaskScreen` caller).

Strings are modelled over `List Char` with ASCII character classes
(the transcript language of the app); JS `Date` values are modelled as
absolute day numbers `n : Nat` with weekday `n % 7`, `0` = Sunday, so
`setDate (+k)` is `n + k` and `getDay()` is `n % 7`.
-/

namespace TodoApp

/-! ## Character helpers (JS semantics, ASCII model) -/

/-- JS `\s` on the ASCII range: space, tab, LF, VT, FF, CR. -/
def jsIsWs (c : Char) : Bool := c.toNat == 32 || (9 ≤ c.toNat && c.toNat ≤ 13)

/-- The separator characters stripped by `cleanTask`: `,` and `;`. -/
def isSep (c : Char) : Bool := c == ',' || c == ';'

/-- The sentence-boundary class `[.!;]` of `parseTasksFromSpeech` step 1. -/
def isSentenceDelim (c : Char) : Bool := c == '.' || c == '!' || c == ';'

def headIsWs : List Char → Bool
  | [] => false
  | c :: _ => jsIsWs c

def lastIsWs (l : List Char) : Bool := headIsWs l.reverse

def headIsSep : List Char → Bool
  | [] => false
  | c :: _ => isSep c

def lastIsSep (l : List Char) : Bool := headIsSep l.reverse

/-- JS `String.prototype.trim` (left part). -/
def trimLeft (l : List Char) : List Char := l.dropWhile jsIsWs

/-- JS `String.prototype.trim` (right part). -/
def trimRight (l : List Char) : List Char := (l.reverse.dropWhile jsIsWs).reverse

/-- JS `String.prototype.trim`. -/
def trimWs (l : List Char) : List Char := trimRight (trimLeft l)

/-- Models `replace(/\s+/g, ' ')`: collapse every whitespace run to one space.
The flag records whether the previous character was whitespace. -/
def collapseAux : Bool → List Char → List Char
  | _, [] => []
  | prevWs, c :: rest =>
    if jsIsWs c then
      if prevWs then collapseAux true rest
      else ' ' :: collapseAux true rest
    else c :: collapseAux false rest

def collapseWs (l : List Char) : List Char := collapseAux false l

/-- JS `toLowerCase` (ASCII, as in `Char.toLower`). -/
def lowerL (l : List Char) : List Char := l.map Char.toLower

/-! ## Conjunction and separator stripping (`cleanTask`) -/

/-- Case-insensitive literal-word match at the front; the word is given
in lowercase.  Mirrors a regex alternation member with the `i` flag. -/
def matchWordCI : List Char → List Char → Bool
  | [], _ => true
  | _ :: _, [] => false
  | w :: ws, c :: cs => (Char.toLower c == w) && matchWordCI ws cs

/-- The conjunction alternation `(and|also|plus|then)`. -/
def conjWords : List (List Char) := ["and", "also", "plus", "then"].map String.data

/-- First word of the alternation matching at the front; returns the
remainder after the word.  The four words are mutually exclusive at any
position, so alternation order does not change the result. -/
def matchWordsCI : List (List Char) → List Char → Option (List Char)
  | [], _ => none
  | w :: ws, l => if matchWordCI w l then some (l.drop w.length) else matchWordsCI ws l

/-- Models `^(and|also|plus|then)\s+`: if the list starts with a conjunction word
followed by at least one whitespace, the remainder after the greedy
whitespace run; `none` otherwise. -/
def leadConjSplit (l : List Char) : Option (List Char) :=
  match matchWordsCI conjWords l with
  | some rest => if headIsWs rest then some (rest.dropWhile jsIsWs) else none
  | none => none

/-- Models `replace(/^(and|also|plus|then)\s+/i, '')`. -/
def stripLeadConj (l : List Char) : List Char := (leadConjSplit l).getD l

/-- The conjunction words reversed, for matching at the end of a list. -/
def revConjWords : List (List Char) := conjWords.map List.reverse

/-- Models `\s+(and|also|plus|then)$`: if the list ends with whitespace followed by
a conjunction word, the part before the whitespace run; `none` otherwise. -/
def trailConjSplit (l : List Char) : Option (List Char) :=
  match matchWordsCI revConjWords l.reverse with
  | some rest => if headIsWs rest then some ((rest.dropWhile jsIsWs).reverse) else none
  | none => none

/-- Models `replace(/\s+(and|also|plus|then)$/i, '')`. -/
def stripTrailConj (l : List Char) : List Char := (trailConjSplit l).getD l

/-- Models `replace(/^[,;]\s*/, '')`: one leading separator and the whitespace after it. -/
def stripLeadSep : List Char → List Char
  | [] => []
  | c :: rest => if isSep c then rest.dropWhile jsIsWs else c :: rest

/-- Models `replace(/\s*[,;]$/, '')`: one trailing separator and the whitespace before it. -/
def stripTrailSep (l : List Char) : List Char :=
  match l.reverse with
  | [] => l
  | c :: rest => if isSep c then (rest.dropWhile jsIsWs).reverse else l

/-- Models `replace(/^./, c => c.toUpperCase())` (the head here is never a line
terminator, since `cleanTask` capitalizes after trimming). -/
def capFirst : List Char → List Char
  | [] => []
  | c :: rest => Char.toUpper c :: rest

/-- Embeds `cleanTask` from `src/lib/speechParser.ts` (lines 121-132), step for step:
trim, collapse whitespace, strip one leading and one trailing conjunction,
strip one leading and one trailing separator, trim, capitalize. -/
def cleanTaskL (l : List Char) : List Char :=
  capFirst (trimWs (stripTrailSep (stripLeadSep (stripTrailConj (stripLeadConj
    (collapseWs (trimWs l)))))))

def cleanTask (s : String) : String := String.mk (cleanTaskL s.data)

/-! ## Splitting -/

/-- JS `split` on a character-class-run regex such as `/[.!;]+/` or `/\s+/`:
fields between maximal delimiter runs, keeping empty fields at the edges.
Fuel-based recursion; the initial fuel `l.length` always suffices because
every step consumes at least one character. -/
def splitRunsAux (p : Char → Bool) : Nat → List Char → List Char → List (List Char)
  | _, cur, [] => [cur.reverse]
  | 0, cur, rest => [cur.reverse ++ rest]
  | fuel + 1, cur, c :: rest =>
    if p c then cur.reverse :: splitRunsAux p fuel [] (rest.dropWhile p)
    else splitRunsAux p fuel (c :: cur) rest

def splitRuns (p : Char → Bool) (l : List Char) : List (List Char) :=
  splitRunsAux p l.length [] l

/-- The fixed action-verb list of `parseTasksFromSpeech` (lines 15-21). -/
def taskVerbs : List (List Char) :=
  (["buy", "call", "email", "send", "write", "read", "schedule",
    "book", "plan", "organize", "finish", "complete", "submit",
    "review", "check", "update", "fix", "create", "delete",
    "prepare", "make", "do", "get", "pick", "drop", "take",
    "remind", "contact", "meet", "visit", "pay", "order"]).map String.data

/-- The pronoun list of `isLikelyTask` (line 108). -/
def pronounWords : List (List Char) :=
  (["i", "you", "he", "she", "it", "we", "they"]).map String.data

/-- Embeds `isLikelyTask` from `src/lib/speechParser.ts` (lines 88-114): short
strings are rejected; then first-word-is-verb, three-or-more words, and
two-or-more words not starting with a pronoun, in that order. -/
def isLikelyTask (text : List Char) : Bool :=
  if text.length < 3 then false
  else
    let words := splitRuns jsIsWs (lowerL text)
    let firstWord := words.headD []
    if taskVerbs.contains firstWord then true
    else if 3 ≤ words.length then true
    else if !pronounWords.contains firstWord && 2 ≤ words.length then true
    else false

/-- One scanning step of `/\s+(and|also|plus|then)\s+/i`: a match at the
current position needs leading whitespace, then (since the words start with
letters, the greedy `\s+` cannot backtrack into the run) a conjunction word
at the end of the whitespace run, then at least one more whitespace. -/
def conjSepMatch (l : List Char) : Option (List Char) :=
  if headIsWs l then leadConjSplit (l.dropWhile jsIsWs) else none

/-- Models `sentence.split(/\s+(and|also|plus|then)\s+/i)` keeping only the even
indices (the non-separator spans, line 40).  Fuel as in `splitRunsAux`. -/
def splitConjAux : Nat → List Char → List Char → List (List Char)
  | _, field, [] => [field.reverse]
  | 0, field, rest => [field.reverse ++ rest]
  | fuel + 1, field, c :: rest =>
    match conjSepMatch (c :: rest) with
    | some rest2 => field.reverse :: splitConjAux fuel [] rest2
    | none => splitConjAux fuel (c :: field) rest

def splitConj (l : List Char) : List (List Char) := splitConjAux l.length [] l

/-- Models `tasks[tasks.length - 1] += suffix` (line 55). -/
def appendToLast (suffix : List Char) : List (List Char) → List (List Char)
  | [] => []
  | [t] => [t ++ suffix]
  | t :: ts => t :: appendToLast suffix ts

/-- JS `split(',')` on a single literal character: every occurrence is a
boundary, empty fields kept. -/
def splitChar (d : Char) : List Char → List (List Char)
  | [] => [[]]
  | c :: rest =>
    if c == d then [] :: splitChar d rest
    else
      match splitChar d rest with
      | [] => [[c]]
      | f :: fs => (c :: f) :: fs

/-- The per-sentence body of `parseTasksFromSpeech` (lines 31-62). -/
def processSentence (tasks : List (List Char)) (sentence : List Char) : List (List Char) :=
  let candidateTasks := splitConj sentence
  if candidateTasks.length == 1 then tasks ++ [cleanTaskL sentence]
  else
    candidateTasks.foldl (fun acc candidate =>
      let cleaned := cleanTaskL candidate
      if cleaned.length > 0 && isLikelyTask cleaned then acc ++ [cleaned]
      else if acc.length > 0 then appendToLast (" and ".data ++ cleaned) acc
      else acc ++ [cleaned]) tasks

/-- Step 3 of `parseTasksFromSpeech` (lines 65-74): comma expansion. -/
def expandCommas (expanded : List (List Char)) (task : List Char) : List (List Char) :=
  let parts := ((splitChar ',' task).map trimWs).filter (fun p => p.length > 0)
  if parts.length > 1 && (parts.filter isLikelyTask).length > 1 then
    expanded ++ parts.map cleanTaskL
  else expanded ++ [task]

/-- Step 4 of `parseTasksFromSpeech` (lines 77-79): drop empties and keep
first occurrences (`self.indexOf(t) === index`). -/
def dedupNonEmpty (seen : List (List Char)) : List (List Char) → List (List Char)
  | [] => []
  | t :: rest =>
    if t.length > 0 && !seen.contains t then t :: dedupNonEmpty (t :: seen) rest
    else dedupNonEmpty (t :: seen) rest

/-- Embeds `parseTasksFromSpeech` from `src/lib/speechParser.ts` (lines 9-80). -/
def parseTasksFromSpeechL (l : List Char) : List (List Char) :=
  if (trimWs l).length == 0 then []
  else
    let sentences := ((splitRuns isSentenceDelim l).map trimWs).filter (fun s => s.length > 0)
    let tasks := sentences.foldl processSentence []
    let expandedTasks := tasks.foldl expandCommas []
    dedupNonEmpty [] (expandedTasks.map cleanTaskL)

def parseTasksFromSpeech (s : String) : List String :=
  (parseTasksFromSpeechL s.data).map String.mk

/-- The segmenter on a nullable transcript: `!transcript` sends `null` and
`undefined` (and `""`) to the empty result (line 10). -/
def parseTasksFromSpeechOpt : Option String → List String
  | none => []
  | some s => parseTasksFromSpeech s

/-! ## Due-date resolver -/

/-- JS `String.prototype.includes`. -/
def startsWithL : List Char → List Char → Bool
  | [], _ => true
  | _ :: _, [] => false
  | n :: ns, c :: cs => (n == c) && startsWithL ns cs

def containsSub : List Char → List Char → Bool
  | [], needle => needle.isEmpty
  | c :: rest, needle => startsWithL needle (c :: rest) || containsSub rest needle

/-- The weekday-name table of `extractDueDateFromText` (line 171). -/
def weekdayNames : List (List Char) :=
  (["sunday", "monday", "tuesday", "wednesday", "thursday", "friday",
    "saturday"]).map String.data

/-- The `for` loop of lines 172-182: index of the first weekday name
contained in the text. -/
def findWeekdayIdxAux (t : List Char) : Nat → List (List Char) → Option Nat
  | _, [] => none
  | i, w :: ws => if containsSub t w then some i else findWeekdayIdxAux t (i + 1) ws

def findWeekdayIdx (t : List Char) : Option Nat :=
  findWeekdayIdxAux t 0 weekdayNames

/-- Embeds `extractDueDateFromText` from `src/lib/speechParser.ts` (lines 139-185).
The hidden `new Date()` clock read is surfaced as the `today` parameter
(absolute day number, weekday `today % 7`, `0` = Sunday). -/
def extractDueDateFromText (today : Nat) (taskText : String) : Option Nat :=
  let text := lowerL taskText.data
  if containsSub text ("today".data) then some today
  else if containsSub text ("tomorrow".data) then some (today + 1)
  else if containsSub text ("next week".data) then some (today + 7)
  else if containsSub text ("weekend".data) || containsSub text ("this weekend".data) then
    some (today + (6 + 7 - today % 7) % 7)
  else
    match findWeekdayIdx text with
    | some targetDay =>
      let currentDay := today % 7
      let daysUntil : Int := (targetDay : Int) - (currentDay : Int)
      let daysUntil := if daysUntil ≤ 0 then daysUntil + 7 else daysUntil
      some (today + daysUntil.toNat)
    | none => none

/-! ## Task store -/

/-- Embeds `Task` from `src/types/index.ts`; `dueDate` is a calendar date modelled
as an absolute day number. -/
structure Task where
  id : String
  title : String
  description : Option String
  dueDate : Option Nat
  completed : Bool
deriving DecidableEq, Repr

/-- Embeds `FilterType` from `src/types/index.ts`. -/
inductive FilterType
  | all
  | completed
  | incomplete
deriving DecidableEq

/-- The `ADD_TASK` comparator of the `TaskContext` reducer
(`src/contexts/TaskContext.tsx` lines 41-46): undated tasks sort after
dated ones, dated ones by `getTime()` difference. -/
def cmpReducer (a b : Task) : Int :=
  match a.dueDate, b.dueDate with
  | none, none => 0
  | none, some _ => 1
  | some _, none => -1
  | some x, some y => (x : Int) - (y : Int)

/-- The `addTask` comparator of the `useTasks` hook
(`src/hooks/useTasks.ts` lines 37-39): `0` whenever either task lacks a
due date; when both have one the code calls
`a.dueDate.localeCompare(b.dueDate)`, which is chronological for the ISO
date strings that `JSON.parse` loads from storage but does not exist on
the `Date` objects the AddTaskScreen flow supplies, where the real
comparator throws a TypeError instead of returning.  The model is
therefore exact only on comparisons where at least one task is undated
(the `0` branch) and on string-typed due dates; the theorems below rely
on nothing beyond those cases. -/
def cmpHook (a b : Task) : Int :=
  match a.dueDate, b.dueDate with
  | some x, some y => if x < y then -1 else if y < x then 1 else 0
  | _, _ => 0

/-- Stable insertion step: the new element goes after every element it does
not compare strictly below. -/
def insertCmp (cmp : Task → Task → Int) (t : Task) : List Task → List Task
  | [] => [t]
  | x :: xs => if cmp t x < 0 then t :: x :: xs else x :: insertCmp cmp t xs

/-- JS `Array.prototype.sort` (stable per ES2019) as a stable insertion
sort.  For the scenarios proved below every pair of distinct elements
either compares consistently or compares `0`, so any stable sort agrees. -/
def stableSort (cmp : Task → Task → Int) (l : List Task) : List Task :=
  l.foldl (fun acc t => insertCmp cmp t acc) []

/-- Embeds `ADD_TASK` of the reducer: append then sort the whole collection. -/
def reducerAddTask (tasks : List Task) (t : Task) : List Task :=
  stableSort cmpReducer (tasks ++ [t])

/-- Embeds `addTask` of the `useTasks` hook: append then sort with `cmpHook`. -/
def hookAddTask (tasks : List Task) (t : Task) : List Task :=
  stableSort cmpHook (tasks ++ [t])

/-- Embeds `TOGGLE_TASK_COMPLETION` (`TaskContext.tsx` lines 48-56) and the hook's
`toggleTaskCompletion` (`useTasks.ts` lines 43-49): identical `map`. -/
def toggleTaskCompletion (id : String) (tasks : List Task) : List Task :=
  tasks.map fun task =>
    if task.id = id then { task with completed := !task.completed } else task

/-- The search predicate of `filteredTasks` (both implementations):
case-insensitive substring match on title, or on description when present. -/
def matchesSearch (searchQuery : String) (task : Task) : Bool :=
  containsSub (lowerL task.title.data) (lowerL searchQuery.data) ||
    (match task.description with
     | some d => containsSub (lowerL d.data) (lowerL searchQuery.data)
     | none => false)

/-- Embeds `filteredTasks` (`TaskContext.tsx` lines 130-146, `useTasks.ts`
lines 55-63): the derived view for a search query and filter. -/
def filteredTasks (tasks : List Task) (searchQuery : String) (filter : FilterType) : List Task :=
  tasks.filter fun task =>
    match filter with
    | .completed => matchesSearch searchQuery task && task.completed
    | .incomplete => matchesSearch searchQuery task && !task.completed
    | .all => matchesSearch searchQuery task

def jsTrimS (s : String) : String := String.mk (trimWs s.data)

/-- Embeds `handleAddTask` from `src/screens/AddTaskScreen.tsx` (lines 30-46): the
empty-title guard lives in this caller, not in the store.  The Boolean
result records whether the validation alert was shown. -/
def handleAddTask (store : List Task) (newId title description : String)
    (dueDate : Option Nat) : List Task × Bool :=
  if jsTrimS title = "" then (store, true)
  else
    (hookAddTask store
      { id := newId, title := title, description := some description,
        dueDate := dueDate, completed := false }, false)

/-- The spec's adjacent-pair sort invariant: a dated task never directly
follows an undated one, and adjacent dated tasks are in due-date order. -/
def dueOrderOk (a b : Task) : Bool :=
  match a.dueDate, b.dueDate with
  | none, some _ => false
  | some x, some y => decide (x ≤ y)
  | _, _ => true

def sortInvariant : List Task → Bool
  | a :: b :: rest => dueOrderOk a b && sortInvariant (b :: rest)
  | _ => true

/-- Whether a list starts with a conjunction word followed by whitespace
(the shape `cleanTask` strips at the front). -/
def hasLeadConj (l : List Char) : Bool := (leadConjSplit l).isSome

/-- Whether a list ends with whitespace followed by a conjunction word
(the shape `cleanTask` strips at the end). -/
def hasTrailConj (l : List Char) : Bool := (trailConjSplit l).isSome

/-- Whitespace-normal form: every whitespace character is a plain space and
is never followed by another whitespace character. -/
def wsNormal : List Char → Bool
  | [] => true
  | c :: rest => (!jsIsWs c || (c == ' ' && !headIsWs rest)) && wsNormal rest

/-! ## Sample tasks for concrete scenarios -/

/-- A task due 2025-03-01 (due dates carried as comparable day codes). -/
def taskMar : Task :=
  { id := "1", title := "March task", description := none,
    dueDate := some 20250301, completed := false }

/-- A task with no due date. -/
def taskNoDate : Task :=
  { id := "2", title := "Undated task", description := none,
    dueDate := none, completed := false }

/-- A task due 2025-01-01. -/
def taskJan : Task :=
  { id := "3", title := "January task", description := none,
    dueDate := some 20250101, completed := false }

/-- A task whose title is the empty string. -/
def emptyTitleTask : Task :=
  { id := "e1", title := "", description := some "", dueDate := none,
    completed := false }

/-! ## Claim C1 -/

/-- C1: the claimed sort invariant fails on the code.  The `useTasks` hook
comparator returns `0` whenever either task lacks a due date, so adding an
undated task and then a dated one leaves the undated task first, violating
the dated-before-undated invariant (the repository's own test expects the
dated-first order).  The `TaskContext` reducer comparator, by contrast,
realizes the spec's Example 5 order on the 2025-03-01 / none / 2025-01-01
scenario. -/
theorem c1_hook_violates_sort_invariant :
    hookAddTask (hookAddTask [] taskNoDate) taskJan = [taskNoDate, taskJan] ∧
    sortInvariant (hookAddTask (hookAddTask [] taskNoDate) taskJan) = false ∧
    reducerAddTask (reducerAddTask (reducerAddTask [] taskMar) taskNoDate) taskJan
      = [taskJan, taskMar, taskNoDate] := by
  decide

/-! ## Claim C2 -/

/-- C2 counterexample: the store-level `addTask` functions (hook and
reducer) perform no validation at all: adding a task whose title is empty
changes the stored collection and signals no error. -/
theorem c2_store_add_accepts_empty_title :
    hookAddTask [] emptyTitleTask = [emptyTitleTask] ∧
    reducerAddTask [] emptyTitleTask = [emptyTitleTask] ∧
    hookAddTask [] emptyTitleTask ≠ [] ∧
    jsTrimS emptyTitleTask.title = "" := by
  decide

/-! ## Claim C3 -/

/-- C3 counterexample: the segmenter does not keep
"Pack apples and oranges for the trip." as a single task. -/
theorem c3_example2_fails :
    parseTasksFromSpeech ("Pack apples and oranges for the trip.") ≠
      ["Pack apples and oranges for the trip"] := by
  decide

/-- C3 as the code actually behaves: "oranges for the trip" has four words,
so `isLikelyTask` classifies it as an independent task (three-or-more-words
rule) and the conjunction is split, yielding two tasks. -/
theorem c3_example2_actual :
    parseTasksFromSpeech ("Pack apples and oranges for the trip.") =
      ["Pack apples", "Oranges for the trip"] ∧
    isLikelyTask (cleanTask ("oranges for the trip")).data = true := by
  decide

/-! ## Claim C4 -/

/-- C4 counterexample: `cleanTask` strips only one leading conjunction per
pass, so it is not idempotent. -/
theorem c4_not_idempotent :
    cleanTask ("and and foo") = "And foo" ∧
    cleanTask (cleanTask ("and and foo")) = "Foo" ∧
    cleanTask (cleanTask ("and and foo")) ≠ cleanTask ("and and foo") := by
  decide

/-! ## Claim C6 -/

/-- C6 counterexample: each pass strips at most one separator / conjunction
layer, so the output can still start with a separator character or a
conjunction word. -/
theorem c6_output_can_start_with_separator :
    cleanTask (",,x") = ",x" ∧
    headIsSep (cleanTask (",,x")).data = true ∧
    cleanTask ("and and go") = "And go" ∧
    hasLeadConj (cleanTask ("and and go")).data = true := by
  decide

/-! ## Claim C7 -/

/-- C7: a null/undefined transcript behaves exactly like an empty (or
whitespace-only) one: the guard on line 10 returns the empty sequence.
The embedding is a total function, matching the propagation policy that
the segmenter never fails on any string input. -/
theorem c7_null_like_empty :
    parseTasksFromSpeechOpt none = [] ∧
    (∀ s : String, trimWs s.data = [] → parseTasksFromSpeechOpt (some s) = []) := by
  refine ⟨rfl, fun s h => ?_⟩
  simp [parseTasksFromSpeechOpt, parseTasksFromSpeech, parseTasksFromSpeechL, h]

/-- Witness for C7 at the whitespace-only transcript. -/
theorem c7_null_like_empty_witness :
    parseTasksFromSpeechOpt (some ("   ")) = [] :=
  c7_null_like_empty.2 ("   ") (by decide)

/-! ## Claim C8 -/

theorem containsSub_nil_needle (hay : List Char) : containsSub hay [] = true := by
  cases hay <;> simp [containsSub, startsWithL]

theorem matchesSearch_empty (task : Task) : matchesSearch "" task = true := by
  simp [matchesSearch, lowerL, containsSub_nil_needle]

/-- C8: with filter `all` and empty search query, the derived view is the
entire stored collection in stored order (`filter` never reorders). -/
theorem c8_view_all_empty_is_identity (tasks : List Task) :
    filteredTasks tasks "" FilterType.all = tasks := by
  unfold filteredTasks
  induction tasks with
  | nil => rfl
  | cons t ts ih => simp [List.filter_cons, matchesSearch_empty]

/-! ## Claim C9 -/

/-- C9: toggling preserves length and order, changes only the `completed`
flag of tasks with the given id, leaves every other field and every
non-matching task untouched, and is the identity when no task matches. -/
theorem c9_toggle_frame (tasks : List Task) (tid : String) :
    (toggleTaskCompletion tid tasks).length = tasks.length ∧
    (∀ i, i < tasks.length →
      ∃ t t', tasks[i]? = some t ∧ (toggleTaskCompletion tid tasks)[i]? = some t' ∧
        t'.id = t.id ∧ t'.title = t.title ∧ t'.description = t.description ∧
        t'.dueDate = t.dueDate ∧
        (t.id = tid → t'.completed = !t.completed) ∧
        (t.id ≠ tid → t' = t)) ∧
    ((∀ t ∈ tasks, t.id ≠ tid) → toggleTaskCompletion tid tasks = tasks) := by
  refine ⟨List.length_map _ _, fun i hi => ?_, fun hall => ?_⟩
  · by_cases hid : tasks[i].id = tid
    · refine ⟨tasks[i], { tasks[i] with completed := !tasks[i].completed },
        List.getElem?_eq_getElem hi, ?_, rfl, rfl, rfl, rfl, fun _ => rfl,
        fun hne => absurd hid hne⟩
      rw [toggleTaskCompletion, List.getElem?_map, List.getElem?_eq_getElem hi]
      simp [hid]
    · refine ⟨tasks[i], tasks[i], List.getElem?_eq_getElem hi, ?_, rfl, rfl, rfl,
        rfl, fun h => absurd h hid, fun _ => rfl⟩
      rw [toggleTaskCompletion, List.getElem?_map, List.getElem?_eq_getElem hi]
      simp [hid]
  · rw [toggleTaskCompletion]
    conv_rhs => rw [← List.map_id tasks]
    exact List.map_congr_left fun t ht => by simp [hall t ht]

/-- Witness for C9 on a concrete two-task store. -/
theorem c9_toggle_frame_witness :
    ∃ t t', ([taskMar, taskNoDate][1]? = some t ∧
      (toggleTaskCompletion ("2") [taskMar, taskNoDate])[1]? = some t' ∧
      t'.id = t.id ∧ t'.title = t.title ∧ t'.description = t.description ∧
      t'.dueDate = t.dueDate ∧
      (t.id = "2" → t'.completed = !t.completed) ∧
      (t.id ≠ "2" → t' = t)) := by
  have h := (c9_toggle_frame [taskMar, taskNoDate] ("2")).2.1 1 (by decide)
  exact h

/-! ## Claims C5 and C10: the due-date resolver -/

theorem findWeekdayIdxAux_lt_of_some (t : List Char) (ws : List (List Char)) :
    ∀ (i j : Nat), findWeekdayIdxAux t i ws = some j → j < i + ws.length := by
  induction ws with
  | nil => intro i j h; simp [findWeekdayIdxAux] at h
  | cons w rest ih =>
    intro i j h
    rw [findWeekdayIdxAux] at h
    split at h
    · cases h
      simp only [List.length_cons]
      omega
    · have := ih (i + 1) j h
      simp only [List.length_cons]
      omega

theorem findWeekdayIdx_lt (t : List Char) (j : Nat)
    (h : findWeekdayIdx t = some j) : j < 7 := by
  have := findWeekdayIdxAux_lt_of_some t weekdayNames 0 j h
  simpa [weekdayNames] using this

/-- C10: whenever the resolver returns a date, it lies between the
reference day and the reference day plus seven, inclusive. -/
theorem c10_resolved_date_within_week (today : Nat) (text : String) (r : Nat)
    (h : extractDueDateFromText today text = some r) :
    today ≤ r ∧ r ≤ today + 7 := by
  simp only [extractDueDateFromText] at h
  split at h
  · cases h; omega
  · split at h
    · cases h; omega
    · split at h
      · cases h; omega
      · split at h
        · cases h
          constructor
          · omega
          · have : (6 + 7 - today % 7) % 7 < 7 := Nat.mod_lt _ (by omega)
            omega
        · split at h
          · next targetDay heq =>
            have htarget : targetDay < 7 := findWeekdayIdx_lt _ _ heq
            split at h <;> cases h <;> constructor <;> omega
          · exact absurd h (by simp)

/-- Witness for C10 at the "tomorrow" keyword. -/
theorem c10_resolved_date_within_week_witness : 0 ≤ 1 ∧ 1 ≤ 0 + 7 :=
  c10_resolved_date_within_week 0 ("remind me tomorrow") 1 (by decide)

/-- C5: when the text contains a weekday name and none of the
higher-priority keywords, the resolver returns the next occurrence of that
weekday strictly after the reference day: some `today + d` with
`1 ≤ d ≤ 7` landing on the target weekday, and exactly `today + 7` when
the reference day is already on the target weekday. -/
theorem c5_weekday_strictly_future (today : Nat) (text : String) (target : Nat)
    (h1 : containsSub (lowerL text.data) ("today".data) = false)
    (h2 : containsSub (lowerL text.data) ("tomorrow".data) = false)
    (h3 : containsSub (lowerL text.data) ("next week".data) = false)
    (h4 : containsSub (lowerL text.data) ("weekend".data) = false)
    (h5 : containsSub (lowerL text.data) ("this weekend".data) = false)
    (hw : findWeekdayIdx (lowerL text.data) = some target) :
    ∃ d, extractDueDateFromText today text = some (today + d) ∧
      1 ≤ d ∧ d ≤ 7 ∧ (today + d) % 7 = target ∧
      (today % 7 = target → d = 7) := by
  have htarget : target < 7 := findWeekdayIdx_lt _ _ hw
  simp only [extractDueDateFromText, h1, h2, h3, h4, h5, hw, Bool.or_self,
    Bool.false_eq_true, if_false]
  split
  · exact ⟨_, rfl, by omega, by omega, by omega, by omega⟩
  · exact ⟨_, rfl, by omega, by omega, by omega, by omega⟩

/-- Witness for C5: a Monday reference day resolving "monday" lands exactly
seven days later. -/
theorem c5_weekday_strictly_future_witness :
    ∃ d, extractDueDateFromText 1 ("monday") = some (1 + d) ∧
      1 ≤ d ∧ d ≤ 7 ∧ (1 + d) % 7 = 1 ∧ (1 % 7 = 1 → d = 7) :=
  c5_weekday_strictly_future 1 ("monday") 1 (by decide) (by decide) (by decide)
    (by decide) (by decide) (by decide)

/-! ## Claim C2, amended: validation lives in the caller -/

/-- C2 amended: the empty-title validation happens in the AddTaskScreen
caller, not the store.  When the title trims to empty, `handleAddTask`
shows the validation alert, never reaches the store's add, and leaves the
stored collection unchanged.  Nothing is claimed about the non-empty-title
path: there the caller hands the task to `useTasks.addTask`, whose
comparator calls `localeCompare` on `Date` due dates and so can throw
rather than insert (see `cmpHook`). -/
theorem c2_caller_validates (store : List Task) (newId title description : String)
    (dueDate : Option Nat) (h : jsTrimS title = "") :
    handleAddTask store newId title description dueDate = (store, true) := by
  simp [handleAddTask, h]

/-- Witness for the amended C2 on a whitespace-only title. -/
theorem c2_caller_validates_witness :
    handleAddTask [] ("w1") (" ") ("note") none = ([], true) :=
  c2_caller_validates [] ("w1") (" ") ("note") none (by decide)

/-! ## Whitespace structure lemmas for the normalizer -/

theorem headIsWs_dropWhile (l : List Char) : headIsWs (l.dropWhile jsIsWs) = false := by
  induction l with
  | nil => rfl
  | cons c rest ih =>
    rw [List.dropWhile_cons]
    split
    · exact ih
    · next h => simpa [headIsWs] using h

theorem dropWhile_eq_self_of_head (l : List Char) (h : headIsWs l = false) :
    l.dropWhile jsIsWs = l := by
  cases l with
  | nil => rfl
  | cons c rest =>
    have hc : jsIsWs c = false := h
    simp [List.dropWhile_cons, hc]

theorem headIsWs_trimLeft (l : List Char) : headIsWs (trimLeft l) = false :=
  headIsWs_dropWhile l

theorem lastIsWs_trimRight (l : List Char) : lastIsWs (trimRight l) = false := by
  unfold lastIsWs trimRight
  rw [List.reverse_reverse]
  exact headIsWs_dropWhile _

theorem trimRight_front (l : List Char) :
    l = trimRight l ++ (l.reverse.takeWhile jsIsWs).reverse := by
  unfold trimRight
  rw [← List.reverse_append, List.takeWhile_append_dropWhile, List.reverse_reverse]

theorem headIsWs_front (p t : List Char) (h : headIsWs (p ++ t) = false) :
    headIsWs p = false := by
  cases p with
  | nil => rfl
  | cons c r => exact h

theorem headIsWs_trimRight (l : List Char) (h : headIsWs l = false) :
    headIsWs (trimRight l) = false := by
  rw [trimRight_front l] at h
  exact headIsWs_front _ _ h

theorem headIsWs_trimWs (l : List Char) : headIsWs (trimWs l) = false :=
  headIsWs_trimRight _ (headIsWs_trimLeft l)

theorem lastIsWs_trimWs (l : List Char) : lastIsWs (trimWs l) = false :=
  lastIsWs_trimRight _

theorem trimLeft_eq_self (l : List Char) (h : headIsWs l = false) : trimLeft l = l :=
  dropWhile_eq_self_of_head l h

theorem trimRight_eq_self (l : List Char) (h : lastIsWs l = false) : trimRight l = l := by
  unfold trimRight
  rw [dropWhile_eq_self_of_head _ h, List.reverse_reverse]

theorem trimWs_eq_self (l : List Char) (h1 : headIsWs l = false)
    (h2 : lastIsWs l = false) : trimWs l = l := by
  unfold trimWs
  rw [trimLeft_eq_self l h1, trimRight_eq_self l h2]

/-! ## Collapse lemmas -/

theorem wsNormal_cons (c : Char) (l : List Char) :
    wsNormal (c :: l) = ((!jsIsWs c || (c == ' ' && !headIsWs l)) && wsNormal l) := rfl

theorem headIsWs_collapseAux_true (l : List Char) :
    headIsWs (collapseAux true l) = false := by
  induction l with
  | nil => rfl
  | cons c rest ih =>
    rw [collapseAux]
    split
    · simpa using ih
    · next h => simpa [headIsWs] using h

theorem wsNormal_collapseAux (l : List Char) :
    ∀ b, wsNormal (collapseAux b l) = true := by
  induction l with
  | nil => intro b; rfl
  | cons c rest ih =>
    intro b
    rw [collapseAux]
    split
    · cases b with
      | true => simpa using ih true
      | false =>
        simp only [Bool.false_eq_true, if_false]
        rw [wsNormal_cons]
        have h1 := headIsWs_collapseAux_true rest
        simp [h1, ih true, jsIsWs]
    · next h =>
      have hc : jsIsWs c = false := by simpa using h
      rw [wsNormal_cons]
      simp [hc, ih false]

theorem collapseAux_eq_self (l : List Char) (h : wsNormal l = true) :
    collapseAux false l = l ∧ (headIsWs l = false → collapseAux true l = l) := by
  induction l with
  | nil => exact ⟨rfl, fun _ => rfl⟩
  | cons c rest ih =>
    rw [wsNormal_cons, Bool.and_eq_true] at h
    obtain ⟨hc, hr⟩ := h
    obtain ⟨ih1, ih2⟩ := ih hr
    by_cases hws : jsIsWs c = true
    · have h2 : (c == ' ' && !headIsWs rest) = true := by
        rw [Bool.or_eq_true] at hc
        rcases hc with h | h
        · rw [hws] at h
          exact absurd h (by simp)
        · exact h
      rw [Bool.and_eq_true] at h2
      obtain ⟨hsp, hhr⟩ := h2
      have hsp' : c = ' ' := by simpa using hsp
      have hhr' : headIsWs rest = false := by simpa using hhr
      subst hsp'
      constructor
      · rw [collapseAux]
        simp only [hws, if_true, Bool.false_eq_true, if_false]
        rw [ih2 hhr']
      · intro hcontra
        rw [headIsWs] at hcontra
        rw [hws] at hcontra
        exact absurd hcontra (by simp)
    · have hc' : jsIsWs c = false := by simpa using hws
      constructor
      · rw [collapseAux]
        simp only [hc', Bool.false_eq_true, if_false]
        rw [ih1]
      · intro _
        rw [collapseAux]
        simp only [hc', Bool.false_eq_true, if_false]
        rw [ih1]

theorem wsNormal_collapseWs (l : List Char) : wsNormal (collapseWs l) = true :=
  wsNormal_collapseAux l false

theorem collapseWs_eq_self (l : List Char) (h : wsNormal l = true) :
    collapseWs l = l :=
  (collapseAux_eq_self l h).1

/-! ## Closure of whitespace-normality under dropping ends -/

theorem wsNormal_suffix (t s : List Char) (h : wsNormal (t ++ s) = true) :
    wsNormal s = true := by
  induction t with
  | nil => exact h
  | cons c r ih =>
    rw [List.cons_append, wsNormal_cons, Bool.and_eq_true] at h
    exact ih h.2

theorem wsNormal_front (p t : List Char) (h : wsNormal (p ++ t) = true) :
    wsNormal p = true := by
  induction p with
  | nil => rfl
  | cons c r ih =>
    rw [List.cons_append, wsNormal_cons, Bool.and_eq_true] at h
    obtain ⟨h1, h2⟩ := h
    rw [wsNormal_cons, Bool.and_eq_true]
    refine ⟨?_, ih h2⟩
    cases r with
    | nil =>
      rw [Bool.or_eq_true] at h1
      rcases h1 with h | h
      · simp [h]
      · rw [Bool.and_eq_true] at h
        simp [headIsWs, h.1]
    | cons d r2 => exact h1

/-! ## Decompositions: each stripping step removes an end segment -/

theorem matchWordsCI_drop (ws : List (List Char)) (l r : List Char)
    (h : matchWordsCI ws l = some r) : ∃ n, r = l.drop n := by
  induction ws with
  | nil => simp [matchWordsCI] at h
  | cons w ws ih =>
    rw [matchWordsCI] at h
    split at h
    · cases h
      exact ⟨w.length, rfl⟩
    · exact ih h

theorem exists_front_leadConjSplit (l r : List Char) (h : leadConjSplit l = some r) :
    ∃ t, l = t ++ r := by
  unfold leadConjSplit at h
  split at h
  · next rest hm =>
    split at h
    · cases h
      obtain ⟨n, rfl⟩ := matchWordsCI_drop _ _ _ hm
      refine ⟨l.take n ++ (l.drop n).takeWhile jsIsWs, ?_⟩
      rw [List.append_assoc, List.takeWhile_append_dropWhile, List.take_append_drop]
    · cases h
  · cases h

theorem stripLeadConj_decomp (l : List Char) : ∃ t, l = t ++ stripLeadConj l := by
  unfold stripLeadConj
  cases hE : leadConjSplit l with
  | none => exact ⟨[], rfl⟩
  | some r => simpa using exists_front_leadConjSplit l r hE

theorem exists_back_trailConjSplit (l r : List Char) (h : trailConjSplit l = some r) :
    ∃ t, l = r ++ t := by
  unfold trailConjSplit at h
  split at h
  · next rest hm =>
    split at h
    · cases h
      obtain ⟨n, rfl⟩ := matchWordsCI_drop _ _ _ hm
      refine ⟨(l.reverse.take n ++ (l.reverse.drop n).takeWhile jsIsWs).reverse, ?_⟩
      rw [← List.reverse_append, List.append_assoc, List.takeWhile_append_dropWhile,
        List.take_append_drop, List.reverse_reverse]
    · cases h
  · cases h

theorem stripTrailConj_decomp (l : List Char) : ∃ t, l = stripTrailConj l ++ t := by
  unfold stripTrailConj
  cases hE : trailConjSplit l with
  | none => exact ⟨[], by simp⟩
  | some r => simpa using exists_back_trailConjSplit l r hE

theorem stripLeadSep_decomp (l : List Char) : ∃ t, l = t ++ stripLeadSep l := by
  cases l with
  | nil => exact ⟨[], rfl⟩
  | cons c rest =>
    rw [stripLeadSep]
    split
    · refine ⟨c :: rest.takeWhile jsIsWs, ?_⟩
      rw [List.cons_append, List.takeWhile_append_dropWhile]
    · exact ⟨[], rfl⟩

theorem stripTrailSep_decomp (l : List Char) : ∃ t, l = stripTrailSep l ++ t := by
  unfold stripTrailSep
  split
  · exact ⟨[], by simp⟩
  · next c rest heq =>
    split
    · refine ⟨(c :: rest.takeWhile jsIsWs).reverse, ?_⟩
      rw [← List.reverse_append, List.cons_append, List.takeWhile_append_dropWhile,
        ← heq, List.reverse_reverse]
    · exact ⟨[], by simp⟩

theorem trimLeft_decomp (l : List Char) : ∃ t, l = t ++ trimLeft l :=
  ⟨l.takeWhile jsIsWs, (List.takeWhile_append_dropWhile jsIsWs l).symm⟩

theorem trimWs_decomp (l : List Char) : ∃ t s, l = (t ++ trimWs l) ++ s := by
  obtain ⟨t, ht⟩ := trimLeft_decomp l
  refine ⟨t, ((trimLeft l).reverse.takeWhile jsIsWs).reverse, ?_⟩
  rw [List.append_assoc]
  unfold trimWs
  rw [← trimRight_front (trimLeft l)]
  exact ht

/-! ## Whitespace-normality is preserved by every step -/

theorem wsNormal_stripLeadConj (l : List Char) (h : wsNormal l = true) :
    wsNormal (stripLeadConj l) = true := by
  obtain ⟨t, ht⟩ := stripLeadConj_decomp l
  rw [ht] at h
  exact wsNormal_suffix _ _ h

theorem wsNormal_stripTrailConj (l : List Char) (h : wsNormal l = true) :
    wsNormal (stripTrailConj l) = true := by
  obtain ⟨t, ht⟩ := stripTrailConj_decomp l
  rw [ht] at h
  exact wsNormal_front _ _ h

theorem wsNormal_stripLeadSep (l : List Char) (h : wsNormal l = true) :
    wsNormal (stripLeadSep l) = true := by
  obtain ⟨t, ht⟩ := stripLeadSep_decomp l
  rw [ht] at h
  exact wsNormal_suffix _ _ h

theorem wsNormal_stripTrailSep (l : List Char) (h : wsNormal l = true) :
    wsNormal (stripTrailSep l) = true := by
  obtain ⟨t, ht⟩ := stripTrailSep_decomp l
  rw [ht] at h
  exact wsNormal_front _ _ h

theorem wsNormal_trimWs (l : List Char) (h : wsNormal l = true) :
    wsNormal (trimWs l) = true := by
  obtain ⟨t, s, hts⟩ := trimWs_decomp l
  rw [hts] at h
  exact wsNormal_suffix _ _ (wsNormal_front _ _ h)

/-! ## Capitalization lemmas -/

theorem toNat_ofNat_of_lt (n : Nat) (h : n < 55296) : (Char.ofNat n).toNat = n := by
  rw [Char.ofNat, dif_pos (Or.inl h)]
  rfl

theorem toNat_toUpper_of_lower (c : Char) (h : c.toNat ≥ 97 ∧ c.toNat ≤ 122) :
    (Char.toUpper c).toNat = c.toNat - 32 := by
  rw [Char.toUpper, if_pos h]
  exact toNat_ofNat_of_lt _ (by omega)

theorem toUpper_eq_self_of_not_lower (c : Char)
    (h : ¬(c.toNat ≥ 97 ∧ c.toNat ≤ 122)) : Char.toUpper c = c := by
  rw [Char.toUpper, if_neg h]

theorem toUpper_idem (c : Char) : Char.toUpper (Char.toUpper c) = Char.toUpper c := by
  by_cases h : c.toNat ≥ 97 ∧ c.toNat ≤ 122
  · have h1 := toNat_toUpper_of_lower c h
    apply toUpper_eq_self_of_not_lower
    rw [h1]
    omega
  · rw [toUpper_eq_self_of_not_lower c h, toUpper_eq_self_of_not_lower c h]

theorem jsIsWs_iff (c : Char) :
    jsIsWs c = true ↔ (c.toNat = 32 ∨ (9 ≤ c.toNat ∧ c.toNat ≤ 13)) := by
  simp [jsIsWs]

theorem jsIsWs_toUpper (c : Char) : jsIsWs (Char.toUpper c) = jsIsWs c := by
  by_cases h : c.toNat ≥ 97 ∧ c.toNat ≤ 122
  · have h1 := toNat_toUpper_of_lower c h
    have e1 : jsIsWs (Char.toUpper c) = false := by
      rw [Bool.eq_false_iff, Ne, jsIsWs_iff, h1]
      omega
    have e2 : jsIsWs c = false := by
      rw [Bool.eq_false_iff, Ne, jsIsWs_iff]
      omega
    rw [e1, e2]
  · rw [toUpper_eq_self_of_not_lower c h]

theorem capFirst_capFirst (l : List Char) : capFirst (capFirst l) = capFirst l := by
  cases l with
  | nil => rfl
  | cons c rest =>
    show Char.toUpper (Char.toUpper c) :: rest = Char.toUpper c :: rest
    rw [toUpper_idem]

theorem headIsWs_capFirst (l : List Char) : headIsWs (capFirst l) = headIsWs l := by
  cases l with
  | nil => rfl
  | cons c rest =>
    show jsIsWs (Char.toUpper c) = jsIsWs c
    exact jsIsWs_toUpper c

theorem headIsWs_append (xs ys : List Char) (h : xs ≠ []) :
    headIsWs (xs ++ ys) = headIsWs xs := by
  cases xs with
  | nil => exact absurd rfl h
  | cons c r => rfl

theorem lastIsWs_capFirst (l : List Char) : lastIsWs (capFirst l) = lastIsWs l := by
  cases l with
  | nil => rfl
  | cons c rest =>
    show lastIsWs (Char.toUpper c :: rest) = lastIsWs (c :: rest)
    unfold lastIsWs
    rw [List.reverse_cons, List.reverse_cons]
    by_cases hr : rest.reverse = []
    · rw [hr, List.nil_append, List.nil_append]
      show jsIsWs (Char.toUpper c) = jsIsWs c
      exact jsIsWs_toUpper c
    · rw [headIsWs_append _ _ hr, headIsWs_append _ _ hr]

theorem wsNormal_capFirst (l : List Char) (h : wsNormal l = true) :
    wsNormal (capFirst l) = true := by
  cases l with
  | nil => rfl
  | cons c rest =>
    show wsNormal (Char.toUpper c :: rest) = true
    rw [wsNormal_cons, Bool.and_eq_true]
    rw [wsNormal_cons, Bool.and_eq_true] at h
    obtain ⟨h1, h2⟩ := h
    refine ⟨?_, h2⟩
    by_cases hws : jsIsWs c = true
    · have h3 : (c == ' ' && !headIsWs rest) = true := by
        rw [Bool.or_eq_true] at h1
        rcases h1 with h | h
        · rw [hws] at h
          exact absurd h (by simp)
        · exact h
      rw [Bool.and_eq_true] at h3
      have hsp : c = ' ' := by simpa using h3.1
      subst hsp
      have hup : Char.toUpper ' ' = ' ' := by decide
      rw [hup, Bool.or_eq_true]
      right
      rw [Bool.and_eq_true]
      exact ⟨by simp, h3.2⟩
    · have hc : jsIsWs c = false := by simpa using hws
      have hc2 : jsIsWs (Char.toUpper c) = false := by rw [jsIsWs_toUpper, hc]
      simp [hc2]

/-! ## The normalizer output invariants -/

/-- Structural invariants of every `cleanTask` output: no edge whitespace,
whitespace-normal interior, and a capitalization-stable head. -/
theorem cleanTaskL_invariants (x : List Char) :
    headIsWs (cleanTaskL x) = false ∧ lastIsWs (cleanTaskL x) = false ∧
    wsNormal (cleanTaskL x) = true ∧ capFirst (cleanTaskL x) = cleanTaskL x := by
  unfold cleanTaskL
  have w1 : wsNormal (collapseWs (trimWs x)) = true := wsNormal_collapseWs _
  have w2 := wsNormal_stripLeadConj _ w1
  have w3 := wsNormal_stripTrailConj _ w2
  have w4 := wsNormal_stripLeadSep _ w3
  have w5 := wsNormal_stripTrailSep _ w4
  have w6 := wsNormal_trimWs _ w5
  refine ⟨?_, ?_, ?_, capFirst_capFirst _⟩
  · rw [headIsWs_capFirst]
    exact headIsWs_trimWs _
  · rw [lastIsWs_capFirst]
    exact lastIsWs_trimWs _
  · exact wsNormal_capFirst _ w6

/-! ## Identity of each step on already-stripped input -/

theorem stripLeadConj_eq_self (l : List Char) (h : hasLeadConj l = false) :
    stripLeadConj l = l := by
  unfold stripLeadConj
  cases hE : leadConjSplit l with
  | none => rfl
  | some r =>
    rw [hasLeadConj, hE] at h
    simp at h

theorem stripTrailConj_eq_self (l : List Char) (h : hasTrailConj l = false) :
    stripTrailConj l = l := by
  unfold stripTrailConj
  cases hE : trailConjSplit l with
  | none => rfl
  | some r =>
    rw [hasTrailConj, hE] at h
    simp at h

theorem stripLeadSep_eq_self (l : List Char) (h : headIsSep l = false) :
    stripLeadSep l = l := by
  cases l with
  | nil => rfl
  | cons c rest =>
    have hc : isSep c = false := h
    simp [stripLeadSep, hc]

theorem stripTrailSep_eq_self (l : List Char) (h : lastIsSep l = false) :
    stripTrailSep l = l := by
  unfold stripTrailSep
  split
  · rfl
  · next c rest heq =>
    have hc : isSep c = false := by
      rw [lastIsSep, heq] at h
      exact h
    simp [hc]

/-! ## Claim C4, amended -/

/-- C4 amended: `cleanTask` is idempotent on every input whose one-pass
output does not still start with a conjunction word followed by whitespace,
end with whitespace followed by a conjunction word, or start or end with a
separator character (each pass strips at most one such layer, which is what
the counterexample exploits). -/
theorem cleanTask_idem_of_stripped (x : String)
    (hA : hasLeadConj (cleanTask x).data = false)
    (hB : hasTrailConj (cleanTask x).data = false)
    (hC : headIsSep (cleanTask x).data = false)
    (hD : lastIsSep (cleanTask x).data = false) :
    cleanTask (cleanTask x) = cleanTask x := by
  obtain ⟨ih, il, iw, ic⟩ := cleanTaskL_invariants x.data
  have hdata : (cleanTask x).data = cleanTaskL x.data := rfl
  rw [hdata] at hA hB hC hD
  have key : cleanTaskL (cleanTaskL x.data) = cleanTaskL x.data := by
    conv_lhs => rw [cleanTaskL]
    rw [trimWs_eq_self _ ih il, collapseWs_eq_self _ iw, stripLeadConj_eq_self _ hA,
      stripTrailConj_eq_self _ hB, stripLeadSep_eq_self _ hC,
      stripTrailSep_eq_self _ hD, trimWs_eq_self _ ih il, ic]
  exact congrArg String.mk key

/-- Witness for the amended C4. -/
theorem cleanTask_idem_of_stripped_witness :
    cleanTask (cleanTask ("hello   world")) = cleanTask ("hello   world") :=
  cleanTask_idem_of_stripped ("hello   world") (by decide) (by decide) (by decide)
    (by decide)

/-! ## Claim C6, amended -/

/-- C6 amended: the normalizer output never has leading or trailing
whitespace (the separator / conjunction part of the guarantee fails, see
the counterexample). -/
theorem cleanTask_no_edge_whitespace (s : String) :
    headIsWs (cleanTask s).data = false ∧ lastIsWs (cleanTask s).data = false := by
  have h := cleanTaskL_invariants s.data
  exact ⟨h.1, h.2.1⟩

end TodoApp
